import Mathlib

/-!
Verification of the manifest-tree builder and the two renderers of
`cargo-folderinfo` (`src/main.rs`), as a shallow embedding in Lean.

Modelling conventions:
* A parsed TOML value (`toml::Value`) is `Toml`; a table is its key/value
  sequence in map-iteration order.  The `toml` crate stores tables in a
  `BTreeMap`, so iteration order is strictly sorted by key; theorems that
  depend on the order state that invariant as a `List.Lex`-sortedness
  hypothesis on the key strings' character lists.
* The filesystem is `Dir`: a directory name, an optional (already parsed)
  manifest, and the subdirectories in listing order.  `fs::read_to_string`
  failing is `manifest = none`.
* Fallible Rust code (`panic!`, `expect`) is `Except String`.
* Rust byte lengths and byte slicing are modelled on the character lists
  of Lean strings (the interesting inputs are ASCII, where they agree).
* `usize` subtraction (which panics on underflow in debug builds) is
  `checkedSub`; the total variant `padded_text_len` uses truncated `Nat`
  subtraction and agrees with it whenever no underflow occurs.
-/

inductive Toml where
  | str : String → Toml
  | table : List (String × Toml) → Toml
  | other : Toml

inductive Dir where
  | mk : String → Option Toml → List Dir → Dir

/-- The `Project` node of `main.rs`: `folder`, `name`, `desc`, `subs`, `deps`. -/
inductive Project where
  | mk : String → String → Option String → List Project → List String → Project

def Dir.dname : Dir → String
  | .mk n _ _ => n

def Dir.manifest : Dir → Option Toml
  | .mk _ m _ => m

def Dir.dsubs : Dir → List Dir
  | .mk _ _ s => s

def Project.folder : Project → String
  | .mk f _ _ _ _ => f

def Project.pname : Project → String
  | .mk _ n _ _ _ => n

def Project.desc : Project → Option String
  | .mk _ _ d _ _ => d

def Project.subs : Project → List Project
  | .mk _ _ _ s _ => s

def Project.deps : Project → List String
  | .mk _ _ _ _ d => d

/-- `v2table` of `main.rs`: coerce a value to a table, panicking otherwise. -/
def v2table : Toml → Except String (List (String × Toml))
  | .table t => .ok t
  | _ => .error "expected a table"

/-- `v2str` of `main.rs`: coerce a value to a string, panicking otherwise. -/
def v2str : Toml → Except String String
  | .str s => .ok s
  | _ => .error "expected a string"

/-- Rust `str::starts_with`, on explicit character lists. -/
def listIsPre : List Char → List Char → Bool
  | [], _ => true
  | _ :: _, [] => false
  | a :: as, b :: bs => a == b && listIsPre as bs

def strStartsWith (s p : String) : Bool := listIsPre p.data s.data

/-- Rust `str::split_at n |>.1`-complement: drop the first `n` units. -/
def strDrop (s : String) (n : Nat) : String := String.mk (s.data.drop n)

/-- One step of the `for (k, v) in v2table(&toml)` loop of `process_folder`:
`package` overwrites `name`/`description`, `dependencies` must be a table and
contributes its keys, a `dependencies.<name>` key contributes `<name>`. -/
def extractLoop : List (String × Toml) → Option String × Option String × List String →
    Except String (Option String × Option String × List String)
  | [], acc => .ok acc
  | (k, v) :: rest, (nm, dsc, deps) =>
    if k = "package" then
      match v2table v with
      | .error e => .error e
      | .ok pkg =>
        match (match pkg.find? (fun kv => kv.1 == "description") with
               | none => Except.ok none
               | some kv => (v2str kv.2).map some : Except String (Option String)) with
        | .error e => .error e
        | .ok dsc' =>
          match (match pkg.find? (fun kv => kv.1 == "name") with
                 | none => Except.ok none
                 | some kv => (v2str kv.2).map some : Except String (Option String)) with
          | .error e => .error e
          | .ok nm' => extractLoop rest (nm', dsc', deps)
    else if k = "dependencies" then
      match v2table v with
      | .error e => .error e
      | .ok dt => extractLoop rest (nm, dsc, deps ++ dt.map Prod.fst)
    else if strStartsWith k "dependencies." then
      extractLoop rest (nm, dsc, deps ++ [strDrop k 13])
    else
      extractLoop rest (nm, dsc, deps)

/-- The metadata-extraction part of `process_folder`: the parsed manifest must
be a table, then run the key/value loop starting from no name, no description
and no dependencies. -/
def extractMeta (t : Toml) : Except String (Option String × Option String × List String) :=
  match v2table t with
  | .error e => .error e
  | .ok kvs => extractLoop kvs (none, none, [])

mutual
/-- `process_folder` of `main.rs`.  A directory without a manifest yields
`ok none`; otherwise extract the metadata, recurse into the subdirectories in
order, and finally require a `name` (the missing-name `panic!` is the
`.error` branch). -/
def process_folder : Dir → Except String (Option Project)
  | .mk _ none _ => .ok none
  | .mk dn (some t) subs =>
    match extractMeta t with
    | .error e => .error e
    | .ok (nm, dsc, deps) =>
      match processSubs subs with
      | .error e => .error e
      | .ok ps =>
        match nm with
        | some n => .ok (some (.mk dn n dsc ps deps))
        | none => .error ("Crate without name in " ++ dn)

/-- The `for entry in path.read_dir()` loop of `process_folder`: process the
subdirectories in order, keeping the `Some` results, aborting on the first
panic. -/
def processSubs : List Dir → Except String (List Project)
  | [] => .ok []
  | d :: ds =>
    match process_folder d with
    | .error e => .error e
    | .ok none => processSubs ds
    | .ok (some p) =>
      match processSubs ds with
      | .error e => .error e
      | .ok ps => .ok (p :: ps)
end

mutual
/-- The folder labels of all nodes of a built tree, in depth-first order. -/
def projFolders : Project → List String
  | .mk f _ _ subs _ => f :: projFoldersList subs

def projFoldersList : List Project → List String
  | [] => []
  | p :: ps => projFolders p ++ projFoldersList ps
end

mutual
/-- Modelled from the spec: the directories that should produce nodes — a
directory with a manifest produces a node and its subdirectories are
considered; a directory without one produces nothing and its whole subtree is
never visited. -/
def specVisitedFolders : Dir → List String
  | .mk _ none _ => []
  | .mk n (some _) subs => n :: specVisitedFoldersList subs

def specVisitedFoldersList : List Dir → List String
  | [] => []
  | d :: ds => specVisitedFolders d ++ specVisitedFoldersList ds
end

mutual
/-- The directories on which `process_folder` is invoked when starting from
the given root: the root itself, and, when the root has a manifest, everything
visited from its subdirectories. -/
def visitedDirs : Dir → List Dir
  | .mk n none subs => [.mk n none subs]
  | .mk n (some t) subs => .mk n (some t) subs :: visitedDirsList subs

def visitedDirsList : List Dir → List Dir
  | [] => []
  | d :: ds => visitedDirs d ++ visitedDirsList ds
end

/-- Rust `s.split(' ')`: split on single spaces, keeping empty pieces
(so `""` yields `[""]`, and a trailing space yields a final `""`). -/
def splitSpAux : List Char → String → List String
  | [], cur => [cur]
  | c :: cs, cur => if c = ' ' then cur :: splitSpAux cs "" else splitSpAux cs (cur.push c)

def splitSp (s : String) : List String := splitSpAux s.data ""

/-- `itertools::join(v, sep)`: empty for the empty list, otherwise fold the
tail onto the head with the separator. -/
def itertoolsJoin : List String → String → String
  | [], _ => ""
  | x :: xs, sep => xs.foldl (fun acc e => acc ++ sep ++ e) x

/-- The loop body of `pad_text`: if the next word (plus its separator space)
does not fit on the current line, push the line and start a new one with the
word; either way the word gets a trailing space. -/
def padStep (maxColumnSize : Nat) (acc : List String × String) (word : String) :
    List String × String :=
  if word.length + acc.2.length + 1 > maxColumnSize then
    (acc.1 ++ [acc.2], word ++ " ")
  else
    (acc.1, acc.2 ++ word ++ " ")

/-- `pad_text` of `main.rs`: greedy word wrap over the space-separated words,
starting from no pushed lines and an empty current line; the final current
line is always pushed. -/
def pad_text (s : String) (maxColumnSize : Nat) : List String :=
  let r := (splitSp s).foldl (padStep maxColumnSize) ([], "")
  r.1 ++ [r.2]

/-- The `repeat` helper of `print_project_text`. -/
def srepeat (s : String) : Nat → String
  | 0 => ""
  | n + 1 => srepeat s n ++ s

/-- Debug-build `usize` subtraction: panics (here `none`) on underflow. -/
def checkedSub (a b : Nat) : Option Nat :=
  if b ≤ a then some (a - b) else none

/-- The column budget `max_size - p.folder.len() + 3 + 4 * level` of
`print_project_1`, with truncated subtraction. -/
def padded_text_len (folderLen level : Nat) : Nat :=
  80 - folderLen + 3 + 4 * level

/-- The same column budget with debug-build `usize` semantics: the
subtraction `80 - p.folder.len()` aborts the run when the folder name is
longer than 80. -/
def padded_text_len_checked (folderLen level : Nat) : Option Nat :=
  (checkedSub 80 folderLen).map (fun b => b + 3 + 4 * level)

mutual
/-- `collect_crate_names`: every node's `name`, as a membership-only set
(modelled as the list of names in traversal order). -/
def collect_crate_names : Project → List String
  | .mk _ n _ subs _ => n :: collectNamesList subs

def collectNamesList : List Project → List String
  | [] => []
  | p :: ps => collect_crate_names p ++ collectNamesList ps
end

/-- The dependency lines of one node in `print_project_1`: partition the
dependencies by membership in the crate-name set, join each side with
`", "`, and emit word-wrapped lines prefixed `< ` (internal) or `> `
(external) unless the joined string is empty. -/
def depLines (p : Project) (crates : List String) (level : Nat) : List String :=
  let leftMargin := srepeat "   |" level
  let folderSpaces := srepeat " " p.folder.length
  let budget := padded_text_len p.folder.length level
  let parts := p.deps.partition (fun dep => crates.contains dep)
  let inWorkspace := itertoolsJoin parts.1 ", "
  let outsideWorkspace := itertoolsJoin parts.2 ", "
  (if inWorkspace = "" then []
   else (pad_text inWorkspace budget).map
     (fun line => leftMargin ++ folderSpaces ++ "   < " ++ line)) ++
  (if outsideWorkspace = "" then []
   else (pad_text outsideWorkspace budget).map
     (fun line => leftMargin ++ folderSpaces ++ "   > " ++ line))

/-- `p.name.replace("-", "_")` — the pattern is a single character, so the
replacement is a character map. -/
def sanitizeId (s : String) : String :=
  String.mk (s.data.map (fun c => if c = '-' then '_' else c))

mutual
/-- `print_clusters_1`: a node with children opens a named subgraph cluster
(bare identifier, `-` replaced by `_`) with a quoted label, always declares
the node itself quoted, recurses, and closes the cluster; a leaf is only the
bare quoted node declaration. -/
def clusterLines : Project → List String
  | .mk _ n _ subs _ =>
    (if subs.isEmpty then []
     else ["subgraph cluster_" ++ sanitizeId n ++ " \x7b", "label=\"" ++ n ++ "\""]) ++
    ["\"" ++ n ++ "\""] ++ clusterLinesList subs ++
    (if subs.isEmpty then [] else ["\x7d"])

def clusterLinesList : List Project → List String
  | [] => []
  | p :: ps => clusterLines p ++ clusterLinesList ps
end

/-- The highlight scan of `print_nodes_1`: starting from transparent, take
the first entry whose rule fires — `+X` (blue) when the source is `X`,
else `-X` (red) when the target is `X`, else a bare match (black). -/
def colorScan : List String → String → String → String
  | [], _, _ => "[color=transparent]"
  | h :: hs, f, t =>
    if strStartsWith h "+" && f == strDrop h 1 then "[color=blue]"
    else if strStartsWith h "-" && t == strDrop h 1 then "[color=red]"
    else if f == h || t == h then "[color=black]"
    else colorScan hs f t

/-- The edge attribute string of `print_nodes_1`: empty when the highlight
set is empty, otherwise the result of the highlight scan. -/
def edgeAttrs (highlight : List String) (f t : String) : String :=
  if highlight.isEmpty then "" else colorScan highlight f t

/-- One printed edge line: both endpoints quoted and unmodified. -/
def edgeLine (f t : String) (highlight : List String) : String :=
  "\"" ++ f ++ "\" -> \"" ++ t ++ "\" " ++ edgeAttrs highlight f t

/-- The edges one node contributes in `print_nodes_1`: its dependencies that
are crate names, except when an endpoint is ignored or the target is one of
the node's own direct children. -/
def nodeEdgeLines (p : Project) (ignore highlight crates : List String) : List String :=
  (p.deps.filter (fun dep => crates.contains dep)).filterMap
    (fun dep =>
      if !(ignore.contains p.pname) && !(ignore.contains dep) &&
          !(p.subs.any (fun sub => sub.pname == dep)) then
        some (edgeLine p.pname dep highlight)
      else none)

mutual
/-- All edge lines of `print_nodes_1`: the node's own edges, then the
children's recursively. -/
def edgeLines : Project → List String → List String → List String → List String
  | .mk f n d subs deps, ignore, highlight, crates =>
    nodeEdgeLines (.mk f n d subs deps) ignore highlight crates ++
      edgeLinesList subs ignore highlight crates

def edgeLinesList : List Project → List String → List String → List String → List String
  | [], _, _, _ => []
  | p :: ps, ignore, highlight, crates =>
    edgeLines p ignore highlight crates ++ edgeLinesList ps ignore highlight crates
end

mutual
/-- All nodes of a tree in depth-first order. -/
def subProjects : Project → List Project
  | .mk f n d subs deps => .mk f n d subs deps :: subProjectsList subs

def subProjectsList : List Project → List Project
  | [] => []
  | p :: ps => subProjects p ++ subProjectsList ps
end

/-- The keys of a TOML table value (and `[]` on a non-table, a case that
`process_folder` turns into a panic before using it). -/
def tomlKeys : Toml → List String
  | .table t => t.map Prod.fst
  | _ => []

/-- What one top-level manifest entry contributes to the dependency list:
the keys of the `dependencies` table, the suffix of a `dependencies.<name>`
key, nothing otherwise. -/
def depContrib (kv : String × Toml) : List String :=
  if kv.1 = "dependencies" then tomlKeys kv.2
  else if strStartsWith kv.1 "dependencies." then [strDrop kv.1 13]
  else []

/-- The keys of the manifest's `dependencies` table (empty when there is no
such entry). -/
def tableDepKeys (kvs : List (String × Toml)) : List String :=
  match kvs.find? (fun kv => kv.1 == "dependencies") with
  | some kv => tomlKeys kv.2
  | none => []

/-- The names contributed by the top-level dotted `dependencies.<name>`
keys, in entry order. -/
def dottedDepNames (kvs : List (String × Toml)) : List String :=
  kvs.filterMap
    (fun kv => if strStartsWith kv.1 "dependencies." then some (strDrop kv.1 13) else none)

/-- Whether a highlight entry matches an edge: `+X` against the source,
`-X` against the target, a bare entry against either endpoint. -/
def ruleMatches (f t h : String) : Bool :=
  (strStartsWith h "+" && f == strDrop h 1) || (strStartsWith h "-" && t == strDrop h 1) ||
    (f == h || t == h)

/-- The color a matching highlight entry assigns (`+X` blue, `-X` red,
bare black), checked in the same priority order as the code. -/
def ruleColor (f t h : String) : String :=
  if strStartsWith h "+" && f == strDrop h 1 then "[color=blue]"
  else if strStartsWith h "-" && t == strDrop h 1 then "[color=red]"
  else "[color=black]"

/-- Modelled from the spec: scan the highlight set in iteration order and
let the first matching rule determine the color; transparent when no rule
matches. -/
def specHighlightColor (highlight : List String) (f t : String) : String :=
  match highlight.find? (ruleMatches f t) with
  | some h => ruleColor f t h
  | none => "[color=transparent]"

/-- A wrapped line in its normal form: one or more words (all drawn from the
word list `W`) joined by single spaces, plus the trailing separator space. -/
def wsLine (W : List String) (l : String) : Prop :=
  ∃ ws : List String, ws ≠ [] ∧ (∀ w ∈ ws, w ∈ W) ∧ l = itertoolsJoin ws " " ++ " "

theorem dir_induction (P : Dir → Prop)
    (h : ∀ n m subs, (∀ d ∈ subs, P d) → P (.mk n m subs)) : ∀ d, P d := by
  have key : ∀ k (d : Dir), sizeOf d ≤ k → P d := by
    intro k
    induction k with
    | zero =>
      intro d hd
      cases d with
      | mk n m subs => simp only [Dir.mk.sizeOf_spec] at hd; omega
    | succ k ih =>
      intro d hd
      cases d with
      | mk n m subs =>
        apply h
        intro x hx
        apply ih
        have h1 := List.sizeOf_lt_of_mem hx
        simp only [Dir.mk.sizeOf_spec] at hd
        omega
  exact fun d => key (sizeOf d) d le_rfl

theorem proj_induction (P : Project → Prop)
    (h : ∀ f n dsc subs deps, (∀ q ∈ subs, P q) → P (.mk f n dsc subs deps)) : ∀ p, P p := by
  have key : ∀ k (p : Project), sizeOf p ≤ k → P p := by
    intro k
    induction k with
    | zero =>
      intro p hp
      cases p with
      | mk f n dsc subs deps => simp only [Project.mk.sizeOf_spec] at hp; omega
    | succ k ih =>
      intro p hp
      cases p with
      | mk f n dsc subs deps =>
        apply h
        intro x hx
        apply ih
        have h1 := List.sizeOf_lt_of_mem hx
        simp only [Project.mk.sizeOf_spec] at hp
        omega
  exact fun p => key (sizeOf p) p le_rfl

/-- Claim C9: with a folder name longer than 80 characters the unsigned
subtraction `80 - p.folder.len()` in `print_project_1` underflows, so the
debug-semantics budget is `none` (the run aborts), although the spec formula
`80 - len + 3 + 4*d`, read over the integers, is still non-negative whenever
`len ≤ 83 + 4*d`. -/
theorem c9_budget_underflow (folderLen level : Nat) (h : 80 < folderLen) :
    padded_text_len_checked folderLen level = none ∧
    (folderLen ≤ 83 + 4 * level → 0 ≤ (80 : Int) - folderLen + 3 + 4 * level) := by
  constructor
  · simp only [padded_text_len_checked, checkedSub]
    rw [if_neg (by omega)]
    rfl
  · intro hle
    omega

theorem c9_budget_underflow_witness :
    padded_text_len_checked 81 0 = none ∧ 0 ≤ (80 : Int) - (81 : Nat) + 3 + 4 * (0 : Nat) :=
  ⟨(c9_budget_underflow 81 0 (by decide)).1,
   (c9_budget_underflow 81 0 (by decide)).2 (by decide)⟩

theorem colorScan_eq_spec (hl : List String) (f t : String) :
    colorScan hl f t = specHighlightColor hl f t := by
  induction hl with
  | nil => rfl
  | cons h hs ih =>
    by_cases h1 : (strStartsWith h "+" && f == strDrop h 1) = true
    · have hm : ruleMatches f t h = true := by simp [ruleMatches, h1]
      simp [colorScan, specHighlightColor, ruleColor, List.find?_cons_of_pos _ hm, h1]
    · by_cases h2 : (strStartsWith h "-" && t == strDrop h 1) = true
      · have hm : ruleMatches f t h = true := by simp [ruleMatches, h2]
        simp [colorScan, specHighlightColor, ruleColor, List.find?_cons_of_pos _ hm, h1, h2]
      · by_cases h3 : (f == h || t == h) = true
        · have hm : ruleMatches f t h = true := by simp [ruleMatches, h3]
          simp [colorScan, specHighlightColor, ruleColor, List.find?_cons_of_pos _ hm, h1, h2, h3]
        · have hm : ruleMatches f t h = false := by
            simp only [ruleMatches, Bool.or_eq_false_iff]
            exact ⟨⟨by simpa using h1, by simpa using h2⟩, by simpa using h3⟩
          have hfind : List.find? (ruleMatches f t) (h :: hs) = List.find? (ruleMatches f t) hs :=
            List.find?_cons_of_neg _ (by simp [hm])
          simp only [colorScan]
          rw [if_neg (by simpa using h1), if_neg (by simpa using h2), if_neg (by simpa using h3),
            ih]
          simp only [specHighlightColor, hfind]

/-- Claim C4: with an empty highlight set no color attribute is emitted;
with a non-empty one the attribute is the color of the first matching rule
(`+X` blue on the source, `-X` red on the target, bare black on either
endpoint), transparent if none matches; and for rules `["+A", "-B", "C"]`
on the edge `A -> B` the first rule wins, coloring it blue. -/
theorem c4_highlight (highlight : List String) (f t : String) :
    edgeAttrs [] f t = "" ∧
    (highlight ≠ [] → edgeAttrs highlight f t = specHighlightColor highlight f t) ∧
    edgeAttrs ["+A", "-B", "C"] "A" "B" = "[color=blue]" := by
  refine ⟨rfl, fun hne => ?_, by decide⟩
  rw [edgeAttrs, if_neg (by simpa using hne)]
  exact colorScan_eq_spec highlight f t

theorem c4_highlight_witness :
    edgeAttrs ["Z"] "x" "y" = specHighlightColor ["Z"] "x" "y" :=
  (c4_highlight ["Z"] "x" "y").2.1 (by decide)

theorem specVisited_nil_of_ok_none (d : Dir) (h : process_folder d = .ok none) :
    specVisitedFolders d = [] := by
  cases d with
  | mk n m subs =>
    cases m with
    | none => rfl
    | some t =>
      exfalso
      simp only [process_folder] at h
      cases hE : extractMeta t with
      | error e => simp [hE] at h
      | ok meta =>
        obtain ⟨nm, dsc, deps⟩ := meta
        simp only [hE] at h
        cases hS : processSubs subs with
        | error e => simp [hS] at h
        | ok ps =>
          simp only [hS] at h
          cases nm with
          | none => simp at h
          | some nn => simp at h

theorem processSubs_folders : ∀ (l : List Dir) (ps : List Project),
    (∀ d ∈ l, ∀ q, process_folder d = .ok (some q) → projFolders q = specVisitedFolders d) →
    processSubs l = .ok ps → projFoldersList ps = specVisitedFoldersList l := by
  intro l
  induction l with
  | nil =>
    intro ps ih hok
    simp only [processSubs, Except.ok.injEq] at hok
    subst hok
    rfl
  | cons d ds ihl =>
    intro ps ih hok
    cases hd : process_folder d with
    | error e => simp [processSubs, hd] at hok
    | ok op =>
      cases op with
      | none =>
        simp only [processSubs, hd] at hok
        have hrest := ihl ps (fun x hx => ih x (List.mem_cons_of_mem _ hx)) hok
        have h0 : specVisitedFolders d = [] := specVisited_nil_of_ok_none d hd
        simp only [specVisitedFoldersList, h0, List.nil_append]
        exact hrest
      | some q =>
        simp only [processSubs, hd] at hok
        cases hs : processSubs ds with
        | error e => simp [hs] at hok
        | ok ps' =>
          simp only [hs, Except.ok.injEq] at hok
          subst hok
          simp only [projFoldersList, specVisitedFoldersList]
          rw [ih d (List.mem_cons_self d ds) q hd,
            ihl ps' (fun x hx => ih x (List.mem_cons_of_mem _ hx)) hs]

theorem c1_folders_eq (d : Dir) :
    ∀ p, process_folder d = .ok (some p) → projFolders p = specVisitedFolders d := by
  induction d using dir_induction with
  | h n m subs ih =>
    intro p hp
    cases m with
    | none => simp [process_folder] at hp
    | some t =>
      simp only [process_folder] at hp
      cases hE : extractMeta t with
      | error e => simp [hE] at hp
      | ok meta =>
        obtain ⟨nm, dsc, deps⟩ := meta
        simp only [hE] at hp
        cases hS : processSubs subs with
        | error e => simp [hS] at hp
        | ok ps =>
          simp only [hS] at hp
          cases nm with
          | none => simp at hp
          | some nn =>
            simp only [Except.ok.injEq, Option.some.injEq] at hp
            subst hp
            simp only [projFolders, specVisitedFolders]
            rw [processSubs_folders subs ps ih hS]

/-- Claim C1: a directory without a manifest yields `ok none` (no node, no
error), and the folders of any successfully built tree are exactly those of
the spec's visit relation, which never enters the subtree of an
un-manifested directory — so no descendant of such a directory contributes a
node, manifest or not. -/
theorem c1_manifest_pruning (d : Dir) :
    (d.manifest = none → process_folder d = .ok none) ∧
    ∀ p, process_folder d = .ok (some p) → projFolders p = specVisitedFolders d := by
  constructor
  · intro hm
    cases d with
    | mk n m subs =>
      simp only [Dir.manifest] at hm
      subst hm
      rfl
  · exact c1_folders_eq d

theorem c1_manifest_pruning_witness :
    process_folder (Dir.mk "x" none []) = .ok none ∧
    projFolders (.mk "r" "a" none [] []) =
      specVisitedFolders (.mk "r" (some (.table [("package", .table [("name", .str "a")])]))
        [.mk "s" none
          [.mk "deep" (some (.table [("package", .table [("name", .str "b")])])) []]]) :=
  ⟨(c1_manifest_pruning (Dir.mk "x" none [])).1 rfl,
   (c1_manifest_pruning _).2 _ (by rfl)⟩

theorem mem_visitedDirsList (d : Dir) : ∀ l : List Dir,
    d ∈ visitedDirsList l ↔ ∃ s ∈ l, d ∈ visitedDirs s := by
  intro l
  induction l with
  | nil => simp [visitedDirsList]
  | cons x xs ih =>
    simp only [visitedDirsList, List.mem_append, ih, List.mem_cons]
    constructor
    · rintro (hx | ⟨s, hs, hd⟩)
      · exact ⟨x, Or.inl rfl, hx⟩
      · exact ⟨s, Or.inr hs, hd⟩
    · rintro ⟨s, hs | hs, hd⟩
      · subst hs; exact Or.inl hd
      · exact Or.inr ⟨s, hs, hd⟩

theorem processSubs_error_of_mem (l : List Dir) (d : Dir) (hd : d ∈ l)
    (he : ∃ e, process_folder d = .error e) : ∃ e, processSubs l = .error e := by
  induction l with
  | nil => cases hd
  | cons x xs ih =>
    cases hx : process_folder x with
    | error e => exact ⟨e, by simp [processSubs, hx]⟩
    | ok op =>
      have hdxs : d ∈ xs := by
        rcases List.mem_cons.mp hd with h | h
        · subst h
          obtain ⟨e, he⟩ := he
          rw [he] at hx
          cases hx
        · exact h
      obtain ⟨e, hrec⟩ := ih hdxs
      cases op with
      | none => exact ⟨e, by simp [processSubs, hx, hrec]⟩
      | some q => exact ⟨e, by simp [processSubs, hx, hrec]⟩

theorem node_error_of_noname (d : Dir) (t : Toml)
    (meta : Option String × Option String × List String)
    (hm : d.manifest = some t) (hex : extractMeta t = .ok meta) (hn : meta.1 = none) :
    ∃ e, process_folder d = .error e := by
  cases d with
  | mk n m subs =>
    simp only [Dir.manifest] at hm
    subst hm
    obtain ⟨nm, dsc, deps⟩ := meta
    simp only at hn
    subst hn
    cases hS : processSubs subs with
    | error e => exact ⟨e, by simp [process_folder, hex, hS]⟩
    | ok ps => exact ⟨"Crate without name in " ++ n, by simp [process_folder, hex, hS]⟩

/-- Claim C6: the implementation is the strict variant, uniformly — whenever
the directory walk reaches a manifest whose metadata carries no `name`, the
whole run ends in an error (the `Crate without name` panic, or an earlier
fatal error on the way); no node with an absent name is ever produced (a
`Project`'s name is total by construction). -/
theorem c6_strict_missing_name (root : Dir) :
    ∀ d ∈ visitedDirs root, ∀ (t : Toml) (meta : Option String × Option String × List String),
      d.manifest = some t → extractMeta t = .ok meta → meta.1 = none →
      ∃ e, process_folder root = .error e := by
  induction root using dir_induction with
  | h n m subs ih =>
    intro d hd t meta hm hex hn
    cases m with
    | none =>
      simp only [visitedDirs, List.mem_singleton] at hd
      subst hd
      simp only [Dir.manifest] at hm
      cases hm
    | some t' =>
      simp only [visitedDirs, List.mem_cons] at hd
      rcases hd with hd | hd
      · subst hd
        exact node_error_of_noname _ t meta hm hex hn
      · obtain ⟨s, hs, hds⟩ := (mem_visitedDirsList d subs).mp hd
        have hses := ih s hs d hds t meta hm hex hn
        cases hE : extractMeta t' with
        | error e => exact ⟨e, by simp [process_folder, hE]⟩
        | ok meta' =>
          obtain ⟨nm', dsc', deps'⟩ := meta'
          obtain ⟨e, hpe⟩ := processSubs_error_of_mem subs s hs hses
          exact ⟨e, by simp [process_folder, hE, hpe]⟩

theorem c6_strict_missing_name_witness :
    ∃ e, process_folder (Dir.mk "r" (some (.table [("package", .table [])])) []) = .error e :=
  c6_strict_missing_name (Dir.mk "r" (some (.table [("package", .table [])])) [])
    (Dir.mk "r" (some (.table [("package", .table [])])) [])
    (by simp [visitedDirs]) (.table [("package", .table [])]) (none, none, [])
    rfl (by rfl) rfl

theorem listIsPre_iff : ∀ p s : List Char, listIsPre p s = true ↔ ∃ t, s = p ++ t := by
  intro p
  induction p with
  | nil => intro s; simp [listIsPre]
  | cons a as ih =>
    intro s
    cases s with
    | nil =>
      simp only [listIsPre]
      constructor
      · intro h; cases h
      · rintro ⟨t, ht⟩; cases ht
    | cons b bs =>
      simp only [listIsPre, Bool.and_eq_true, beq_iff_eq, ih bs]
      constructor
      · rintro ⟨rfl, t, rfl⟩; exact ⟨t, rfl⟩
      · rintro ⟨t, ht⟩
        injection ht with h1 h2
        exact ⟨h1.symm ▸ rfl, t, h2⟩

theorem lex_of_dotted (k : String) (h : strStartsWith k "dependencies." = true) :
    List.Lex (· < ·) ("dependencies").data k.data := by
  obtain ⟨t, ht⟩ := (listIsPre_iff ("dependencies.").data k.data).mp h
  have hsplit : ("dependencies.").data = ("dependencies").data ++ ['.'] := by decide
  rw [ht, hsplit, List.append_assoc]
  have h0 : List.Lex (· < ·) ([] : List Char) ('.' :: t) := List.Lex.nil
  have := List.Lex.append_left (· < ·) h0 ("dependencies").data
  simpa using this

theorem v2table_ok (v : Toml) (t : List (String × Toml)) (h : v2table v = .ok t) :
    v = .table t := by
  cases v with
  | table t' => simp only [v2table, Except.ok.injEq] at h; rw [h]
  | str s => cases h
  | other => cases h

theorem extractLoop_deps : ∀ (kvs : List (String × Toml))
    (nm0 dsc0 : Option String) (deps0 : List String)
    (nm dsc : Option String) (deps : List String),
    extractLoop kvs (nm0, dsc0, deps0) = .ok (nm, dsc, deps) →
    deps = deps0 ++ kvs.flatMap depContrib := by
  intro kvs
  induction kvs with
  | nil =>
    intro nm0 dsc0 deps0 nm dsc deps h
    simp only [extractLoop, Except.ok.injEq, Prod.mk.injEq] at h
    simp [h.2.2]
  | cons kv rest ih =>
    intro nm0 dsc0 deps0 nm dsc deps h
    obtain ⟨k, v⟩ := kv
    by_cases hk : k = "package"
    · subst hk
      rw [extractLoop, if_pos rfl] at h
      cases hv : v2table v with
      | error e => rw [hv] at h; cases h
      | ok pkg =>
        rw [hv] at h
        simp only at h
        cases hdsc : (match pkg.find? (fun kv => kv.1 == "description") with
               | none => Except.ok none
               | some kv => (v2str kv.2).map some : Except String (Option String)) with
        | error e => rw [hdsc] at h; cases h
        | ok dsc1 =>
          rw [hdsc] at h
          simp only at h
          cases hnm : (match pkg.find? (fun kv => kv.1 == "name") with
                 | none => Except.ok none
                 | some kv => (v2str kv.2).map some : Except String (Option String)) with
          | error e => rw [hnm] at h; cases h
          | ok nm1 =>
            rw [hnm] at h
            simp only at h
            have hc : depContrib ("package", v) = [] := by
              have h1 : ¬ ("package" : String) = "dependencies" := by decide
              have h2 : strStartsWith "package" "dependencies." = false := by decide
              simp [depContrib, h1, h2]
            rw [ih _ _ _ _ _ _ h]
            simp [hc]
    · by_cases hd : k = "dependencies"
      · subst hd
        rw [extractLoop, if_neg hk, if_pos rfl] at h
        cases hv : v2table v with
        | error e => rw [hv] at h; cases h
        | ok dt =>
          rw [hv] at h
          simp only at h
          have hc : depContrib ("dependencies", v) = dt.map Prod.fst := by
            rw [v2table_ok v dt hv]
            simp [depContrib, tomlKeys]
          rw [ih _ _ _ _ _ _ h]
          simp [hc]
      · by_cases hsw : strStartsWith k "dependencies." = true
        · rw [extractLoop, if_neg hk, if_neg hd, if_pos hsw] at h
          have hc : depContrib (k, v) = [strDrop k 13] := by
            simp [depContrib, hd, hsw]
          rw [ih _ _ _ _ _ _ h]
          simp [hc]
        · rw [extractLoop, if_neg hk, if_neg hd, if_neg hsw] at h
          have hc : depContrib (k, v) = [] := by
            simp [depContrib, hd, hsw]
          rw [ih _ _ _ _ _ _ h]
          simp [hc]

theorem no_dep_flatMap : ∀ l : List (String × Toml),
    (∀ kv ∈ l, ¬ kv.1 = "dependencies") → l.flatMap depContrib = dottedDepNames l := by
  intro l
  induction l with
  | nil => intro _; rfl
  | cons kv rest ih =>
    intro h
    have hk := h kv (List.mem_cons_self _ _)
    have hc : depContrib kv =
        if strStartsWith kv.1 "dependencies." = true then [strDrop kv.1 13] else [] := by
      simp [depContrib, hk]
    have hrest := ih (fun x hx => h x (List.mem_cons_of_mem _ hx))
    by_cases hsw : strStartsWith kv.1 "dependencies." = true
    · simp [List.flatMap_cons, hc, hsw, dottedDepNames, List.filterMap_cons, hrest]
    · simp [List.flatMap_cons, hc, hsw, dottedDepNames, List.filterMap_cons, hrest]

theorem tableDepKeys_nil (l : List (String × Toml))
    (h : ∀ kv ∈ l, ¬ kv.1 = "dependencies") : tableDepKeys l = [] := by
  have hf : l.find? (fun kv => kv.1 == "dependencies") = none := by
    rw [List.find?_eq_none]
    intro x hx
    simpa using h x hx
  simp [tableDepKeys, hf]

theorem flatMap_contrib_sorted : ∀ kvs : List (String × Toml),
    List.Pairwise (fun a b : String × Toml => List.Lex (· < ·) a.1.data b.1.data) kvs →
    kvs.flatMap depContrib = tableDepKeys kvs ++ dottedDepNames kvs := by
  intro kvs
  induction kvs with
  | nil => intro _; rfl
  | cons kv rest ih =>
    intro hp
    rw [List.pairwise_cons] at hp
    obtain ⟨hrel, hrest⟩ := hp
    by_cases hd : kv.1 = "dependencies"
    · have hnone : ∀ x ∈ rest, ¬ x.1 = "dependencies" := by
        intro x hx hxd
        have h1 := hrel x hx
        rw [hd, hxd] at h1
        exact (asymm_of (List.Lex (· < ·)) h1) h1
      have hpos : (fun x : String × Toml => x.1 == "dependencies") kv = true := by
        simpa using hd
      have htab : tableDepKeys (kv :: rest) = tomlKeys kv.2 := by
        unfold tableDepKeys
        rw [@List.find?_cons_of_pos _ (fun x => x.1 == "dependencies") kv rest hpos]
      have hsw : strStartsWith kv.1 "dependencies." = false := by rw [hd]; decide
      have hdot : dottedDepNames (kv :: rest) = dottedDepNames rest := by
        simp [dottedDepNames, List.filterMap_cons, hsw]
      have hc : depContrib kv = tomlKeys kv.2 := by simp [depContrib, hd]
      rw [List.flatMap_cons, htab, hdot, hc, no_dep_flatMap rest hnone]
    · by_cases hsw : strStartsWith kv.1 "dependencies." = true
      · have hlex := lex_of_dotted kv.1 hsw
        have hnone : ∀ x ∈ rest, ¬ x.1 = "dependencies" := by
          intro x hx hxd
          have h1 := hrel x hx
          rw [hxd] at h1
          exact (asymm_of (List.Lex (· < ·)) hlex) h1
        have htab : tableDepKeys (kv :: rest) = [] := by
          apply tableDepKeys_nil
          intro x hx
          rcases List.mem_cons.mp hx with h | h
          · rw [h]; exact hd
          · exact hnone x h
        have hdot : dottedDepNames (kv :: rest) = strDrop kv.1 13 :: dottedDepNames rest := by
          simp [dottedDepNames, List.filterMap_cons, hsw]
        have hc : depContrib kv = [strDrop kv.1 13] := by simp [depContrib, hd, hsw]
        rw [List.flatMap_cons, hc, htab, hdot, no_dep_flatMap rest hnone]
        simp
      · have hc : depContrib kv = [] := by simp [depContrib, hd, hsw]
        have hneg : ¬ ((fun x : String × Toml => x.1 == "dependencies") kv = true) := by
          simpa using hd
        have htab : tableDepKeys (kv :: rest) = tableDepKeys rest := by
          unfold tableDepKeys
          rw [@List.find?_cons_of_neg _ (fun x => x.1 == "dependencies") kv rest hneg]
        have hdot : dottedDepNames (kv :: rest) = dottedDepNames rest := by
          simp [dottedDepNames, List.filterMap_cons, hsw]
        rw [List.flatMap_cons, hc, htab, hdot, ih hrest]
        simp

/-- Claim C2: for a node built from a manifest whose top-level table is
`kvs` (in map-iteration order, which the `BTreeMap`-backed parser keeps
strictly sorted — the `Pairwise` hypothesis), the node's dependency list is
exactly the keys of the `dependencies` table followed by the names of the
top-level `dependencies.<name>` keys, each side in its own iteration order,
without deduplication; in particular its length is the sum of the two
counts. -/
theorem c2_dependency_list (d : Dir) (kvs : List (String × Toml)) (p : Project)
    (hman : d.manifest = some (.table kvs))
    (hsort : List.Pairwise (fun a b : String × Toml => List.Lex (· < ·) a.1.data b.1.data) kvs)
    (hok : process_folder d = .ok (some p)) :
    p.deps = tableDepKeys kvs ++ dottedDepNames kvs ∧
    p.deps.length = (tableDepKeys kvs).length + (dottedDepNames kvs).length := by
  cases d with
  | mk n m subs =>
    simp only [Dir.manifest] at hman
    subst hman
    simp only [process_folder] at hok
    cases hE : extractMeta (.table kvs) with
    | error e => simp [hE] at hok
    | ok meta =>
      obtain ⟨nm, dsc, deps⟩ := meta
      simp only [hE] at hok
      cases hS : processSubs subs with
      | error e => simp [hS] at hok
      | ok ps =>
        simp only [hS] at hok
        cases nm with
        | none => simp at hok
        | some nn =>
          simp only [Except.ok.injEq, Option.some.injEq] at hok
          subst hok
          have hextract : extractLoop kvs (none, none, []) = .ok (some nn, dsc, deps) := hE
          have hdeps := extractLoop_deps kvs none none [] (some nn) dsc deps hextract
          rw [flatMap_contrib_sorted kvs hsort] at hdeps
          have hdeps' : deps = tableDepKeys kvs ++ dottedDepNames kvs := by simpa using hdeps
          constructor
          · show deps = _
            exact hdeps'
          · show deps.length = _
            rw [hdeps']
            exact List.length_append _ _

theorem c2_dependency_list_witness :
    Project.deps (.mk "r" "x" none [] ["serde", "extra"]) =
      tableDepKeys [("dependencies", .table [("serde", .other)]),
        ("dependencies.extra", .other), ("package", .table [("name", .str "x")])] ++
      dottedDepNames [("dependencies", .table [("serde", .other)]),
        ("dependencies.extra", .other), ("package", .table [("name", .str "x")])] ∧
    (Project.deps (.mk "r" "x" none [] ["serde", "extra"])).length =
      (tableDepKeys [("dependencies", .table [("serde", .other)]),
        ("dependencies.extra", .other), ("package", .table [("name", .str "x")])]).length +
      (dottedDepNames [("dependencies", .table [("serde", .other)]),
        ("dependencies.extra", .other), ("package", .table [("name", .str "x")])]).length :=
  c2_dependency_list
    (.mk "r" (some (.table [("dependencies", .table [("serde", .other)]),
      ("dependencies.extra", .other), ("package", .table [("name", .str "x")])])) [])
    [("dependencies", .table [("serde", .other)]),
      ("dependencies.extra", .other), ("package", .table [("name", .str "x")])]
    (.mk "r" "x" none [] ["serde", "extra"])
    rfl
    (by refine List.Pairwise.cons (fun b hb => ?_) (List.Pairwise.cons (fun b hb => ?_)
          (List.pairwise_singleton _ _))
        · rcases List.mem_cons.mp hb with h | h
          · rw [h]; decide
          · rcases List.mem_cons.mp h with h2 | h2
            · rw [h2]; decide
            · cases h2
        · rcases List.mem_cons.mp hb with h | h
          · rw [h]; decide
          · cases h)
    (by rfl)

theorem padFold_le (maxC : Nat) (W : List String) : ∀ (ws : List String)
    (fmt : List String) (cur : String),
    (∀ l ∈ fmt, l.length ≤ maxC ∨ ∃ w ∈ W, l = w ++ " " ∧ maxC ≤ w.length) →
    (cur.length ≤ maxC ∨ ∃ w ∈ W, cur = w ++ " " ∧ maxC ≤ w.length) →
    (∀ w ∈ ws, w ∈ W) →
    ∀ l ∈ (ws.foldl (padStep maxC) (fmt, cur)).1 ++ [(ws.foldl (padStep maxC) (fmt, cur)).2],
      l.length ≤ maxC ∨ ∃ w ∈ W, l = w ++ " " ∧ maxC ≤ w.length := by
  intro ws
  induction ws with
  | nil =>
    intro fmt cur hfmt hcur _ l hl
    simp only [List.foldl_nil] at hl
    rcases List.mem_append.mp hl with h | h
    · exact hfmt l h
    · rw [List.mem_singleton.mp h]; exact hcur
  | cons w ws ih =>
    intro fmt cur hfmt hcur hws l hl
    rw [List.foldl_cons] at hl
    by_cases hgt : w.length + cur.length + 1 > maxC
    · rw [show padStep maxC (fmt, cur) w = (fmt ++ [cur], w ++ " ") from by
        simp [padStep, hgt]] at hl
      refine ih (fmt ++ [cur]) (w ++ " ") ?_ ?_ (fun x hx => hws x (List.mem_cons_of_mem _ hx))
        l hl
      · intro x hx
        rcases List.mem_append.mp hx with h | h
        · exact hfmt x h
        · rw [List.mem_singleton.mp h]; exact hcur
      · rw [String.length_append]
        by_cases hle : w.length + (" ").length ≤ maxC
        · exact Or.inl hle
        · refine Or.inr ⟨w, hws w (List.mem_cons_self _ _), rfl, ?_⟩
          have : (" ").length = 1 := rfl
          omega
    · rw [show padStep maxC (fmt, cur) w = (fmt, cur ++ w ++ " ") from by
        simp [padStep, hgt]] at hl
      refine ih fmt (cur ++ w ++ " ") hfmt ?_
        (fun x hx => hws x (List.mem_cons_of_mem _ hx)) l hl
      rw [String.length_append, String.length_append]
      have h1 : (" ").length = 1 := rfl
      left
      omega

/-- Claim C5, amended: the checked budget agrees with `80 - len + 3 + 4*d`
whenever the folder name is at most 80 characters, and every wrapped line
either fits in the budget (its trailing separator space included) or is a
single word of length `≥ budget` carrying its trailing space, emitted
unsplit.  (The claim as stated fails because every line carries a trailing
separator space: a lone word of length exactly the budget yields a line of
budget + 1 characters although no word alone exceeds the budget — see the
counterexample.) -/
theorem c5_wrap_budget (s : String) (maxC : Nat) :
    (∀ folderLen level, folderLen ≤ 80 →
      padded_text_len_checked folderLen level = some (padded_text_len folderLen level)) ∧
    (∀ line ∈ pad_text s maxC,
      line.length ≤ maxC ∨ ∃ w ∈ splitSp s, line = w ++ " " ∧ maxC ≤ w.length) := by
  constructor
  · intro folderLen level hle
    simp only [padded_text_len_checked, checkedSub, if_pos hle, Option.map_some',
      padded_text_len]
  · intro line hline
    exact padFold_le maxC (splitSp s) (splitSp s) [] ""
      (by intro l hl; cases hl)
      (Or.inl (by simp))
      (fun w hw => hw) line hline

/-- Claim C5, counterexample: at depth 0 with an 80-character folder name the
budget is 3; wrapping `"[a] xy"` yields the line `"[a] "` of length 4 > 3,
while no single word of the input exceeds the budget of 3. -/
theorem c5_wrap_budget_cex :
    padded_text_len 80 0 = 3 ∧
    pad_text "[a] xy" 3 = ["", "[a] ", "xy "] ∧
    3 < ("[a] " : String).length ∧
    ∀ w ∈ splitSp "[a] xy", w.length ≤ 3 := by decide

theorem c5_wrap_budget_witness :
    padded_text_len_checked 80 0 = some (padded_text_len 80 0) ∧
    (("ab " : String).length ≤ 80 ∨
      ∃ w ∈ splitSp "ab", ("ab" : String) ++ " " = w ++ " " ∧ 80 ≤ w.length) :=
  ⟨(c5_wrap_budget "ab" 80).1 80 0 (by decide),
   (c5_wrap_budget "ab" 80).2 ("ab" ++ " ") (by decide)⟩

theorem splitSpAux_ne_nil : ∀ (cs : List Char) (cur : String), splitSpAux cs cur ≠ [] := by
  intro cs
  induction cs with
  | nil => intro cur h; cases h
  | cons c cs ih =>
    intro cur
    by_cases hc : c = ' '
    · simp [splitSpAux, hc]
    · simp only [splitSpAux, if_neg hc]
      exact ih _

theorem splitSp_ne_nil (s : String) : splitSp s ≠ [] := splitSpAux_ne_nil s.data ""

theorem join_append_single (ws : List String) (w : String) (h : ws ≠ []) :
    itertoolsJoin (ws ++ [w]) " " = itertoolsJoin ws " " ++ " " ++ w := by
  cases ws with
  | nil => cases h rfl
  | cons x xs =>
    simp only [List.cons_append, itertoolsJoin, List.foldl_append, List.foldl_cons,
      List.foldl_nil]

theorem padFold_ext (maxC : Nat) : ∀ (ws : List String) (fmt : List String) (cur : String),
    ∃ ext, (ws.foldl (padStep maxC) (fmt, cur)).1 = fmt ++ ext := by
  intro ws
  induction ws with
  | nil => intro fmt cur; exact ⟨[], by simp⟩
  | cons w ws ih =>
    intro fmt cur
    rw [List.foldl_cons]
    by_cases hgt : w.length + cur.length + 1 > maxC
    · rw [show padStep maxC (fmt, cur) w = (fmt ++ [cur], w ++ " ") from by
        simp [padStep, hgt]]
      obtain ⟨ext, hext⟩ := ih (fmt ++ [cur]) (w ++ " ")
      exact ⟨[cur] ++ ext, by rw [hext, List.append_assoc]⟩
    · rw [show padStep maxC (fmt, cur) w = (fmt, cur ++ w ++ " ") from by
        simp [padStep, hgt]]
      exact ih fmt (cur ++ w ++ " ")

theorem padFold_next (maxC : Nat) : ∀ (ws : List String) (fmt : List String) (cur : String),
    ∃ r, ((ws.foldl (padStep maxC) (fmt, cur)).1 ++
      [(ws.foldl (padStep maxC) (fmt, cur)).2])[fmt.length]? = some (cur ++ r) := by
  intro ws
  induction ws with
  | nil =>
    intro fmt cur
    refine ⟨"", ?_⟩
    simp only [List.foldl_nil]
    rw [List.getElem?_concat_length]
    simp
  | cons w ws ih =>
    intro fmt cur
    rw [List.foldl_cons]
    by_cases hgt : w.length + cur.length + 1 > maxC
    · rw [show padStep maxC (fmt, cur) w = (fmt ++ [cur], w ++ " ") from by
        simp [padStep, hgt]]
      obtain ⟨ext, hext⟩ := padFold_ext maxC ws (fmt ++ [cur]) (w ++ " ")
      refine ⟨"", ?_⟩
      rw [hext, List.append_assoc, List.append_assoc,
        List.getElem?_append_right (Nat.le_refl fmt.length)]
      simp
    · rw [show padStep maxC (fmt, cur) w = (fmt, cur ++ w ++ " ") from by
        simp [padStep, hgt]]
      obtain ⟨r, hr⟩ := ih fmt (cur ++ w ++ " ")
      refine ⟨w ++ " " ++ r, ?_⟩
      rw [hr]
      simp [String.append_assoc]

theorem padFold_wsLine (maxC : Nat) (W : List String) : ∀ (ws : List String)
    (fmt : List String) (cur : String),
    wsLine W cur → (∀ w ∈ ws, w ∈ W) →
    ∃ rest, (ws.foldl (padStep maxC) (fmt, cur)).1 = fmt ++ rest ∧
      (∀ l ∈ rest, wsLine W l) ∧ wsLine W (ws.foldl (padStep maxC) (fmt, cur)).2 := by
  intro ws
  induction ws with
  | nil =>
    intro fmt cur hcur _
    exact ⟨[], by simp, fun l hl => absurd hl (List.not_mem_nil l), hcur⟩
  | cons w ws ih =>
    intro fmt cur hcur hws
    rw [List.foldl_cons]
    by_cases hgt : w.length + cur.length + 1 > maxC
    · rw [show padStep maxC (fmt, cur) w = (fmt ++ [cur], w ++ " ") from by
        simp [padStep, hgt]]
      have hw : wsLine W (w ++ " ") :=
        ⟨[w], by simp,
          fun x hx => (List.mem_singleton.mp hx) ▸ hws w (List.mem_cons_self _ _), rfl⟩
      obtain ⟨rest, h1, h2, h3⟩ := ih (fmt ++ [cur]) (w ++ " ") hw
        (fun x hx => hws x (List.mem_cons_of_mem _ hx))
      refine ⟨cur :: rest, ?_, ?_, h3⟩
      · rw [h1, List.append_assoc]
        rfl
      · intro l hl
        rcases List.mem_cons.mp hl with h | h
        · rw [h]; exact hcur
        · exact h2 l h
    · rw [show padStep maxC (fmt, cur) w = (fmt, cur ++ w ++ " ") from by
        simp [padStep, hgt]]
      obtain ⟨ws0, hne, hmem, heq⟩ := hcur
      have hcur' : wsLine W (cur ++ w ++ " ") := by
        refine ⟨ws0 ++ [w], by simp, ?_, ?_⟩
        · intro x hx
          rcases List.mem_append.mp hx with h | h
          · exact hmem x h
          · rw [List.mem_singleton.mp h]; exact hws w (List.mem_cons_self _ _)
        · rw [join_append_single ws0 w hne, heq]
      exact ih fmt (cur ++ w ++ " ") hcur' (fun x hx => hws x (List.mem_cons_of_mem _ hx))

/-- Claim C10: when the very first word already fails the budget test
(`word.len + 1 > budget`), `pad_text`'s first returned line is the empty
string, pushed before the over-length word, which then opens the second
line; and every returned line other than such an empty first line is some
non-empty sequence of the input's words joined by single spaces plus a
trailing separator space — hence one character longer than its words joined
by single spaces. -/
theorem c10_padtext_shape (s : String) (maxC : Nat) :
    (((splitSp s).headD "").length + 1 > maxC →
      (pad_text s maxC).head? = some "" ∧
      ∃ r, (pad_text s maxC)[1]? = some (((splitSp s).headD "") ++ " " ++ r)) ∧
    (∀ line ∈ (pad_text s maxC).tail, wsLine (splitSp s) line) ∧
    (((splitSp s).headD "").length + 1 ≤ maxC →
      ∀ line ∈ pad_text s maxC, wsLine (splitSp s) line) := by
  cases h : splitSp s with
  | nil => exact absurd h (splitSp_ne_nil s)
  | cons w0 wrest =>
    have hw0 : w0 ∈ w0 :: wrest := List.mem_cons_self _ _
    have hWrest : ∀ w ∈ wrest, w ∈ w0 :: wrest := fun w hw => List.mem_cons_of_mem _ hw
    have hpt : pad_text s maxC =
        (wrest.foldl (padStep maxC) (padStep maxC ([], "") w0)).1 ++
        [(wrest.foldl (padStep maxC) (padStep maxC ([], "") w0)).2] := by
      simp only [pad_text, h, List.foldl_cons]
    simp only [List.headD_cons]
    by_cases hgt : w0.length + 1 > maxC
    · have hstep : padStep maxC ([], "") w0 = ([""], w0 ++ " ") := by
        unfold padStep
        rw [if_pos (by simpa using hgt)]
        simp
      rw [hstep] at hpt
      obtain ⟨ext, hext⟩ := padFold_ext maxC wrest [""] (w0 ++ " ")
      have hw0line : wsLine (w0 :: wrest) (w0 ++ " ") :=
        ⟨[w0], by simp, fun x hx => (List.mem_singleton.mp hx) ▸ hw0, rfl⟩
      obtain ⟨rest, hr1, hr2, hr3⟩ := padFold_wsLine maxC (w0 :: wrest) wrest [""] (w0 ++ " ")
        hw0line hWrest
      refine ⟨fun _ => ⟨?_, ?_⟩, ?_, fun hle => absurd hgt (by omega)⟩
      · rw [hpt, hext]
        rfl
      · obtain ⟨r, hr⟩ := padFold_next maxC wrest [""] (w0 ++ " ")
        refine ⟨r, ?_⟩
        rw [hpt]
        simpa using hr
      · intro line hline
        rw [hpt, hr1] at hline
        have : line ∈ rest ++ [(wrest.foldl (padStep maxC) ([""], w0 ++ " ")).2] := by
          simpa using hline
        rcases List.mem_append.mp this with hm | hm
        · exact hr2 line hm
        · rw [List.mem_singleton.mp hm]; exact hr3
    · have hstep : padStep maxC ([], "") w0 = ([], w0 ++ " ") := by
        unfold padStep
        rw [if_neg (by simpa using hgt)]
        rfl
      rw [hstep] at hpt
      have hw0line : wsLine (w0 :: wrest) (w0 ++ " ") :=
        ⟨[w0], by simp, fun x hx => (List.mem_singleton.mp hx) ▸ hw0, rfl⟩
      obtain ⟨rest, hr1, hr2, hr3⟩ := padFold_wsLine maxC (w0 :: wrest) wrest [] (w0 ++ " ")
        hw0line hWrest
      have hall : ∀ line ∈ pad_text s maxC, wsLine (w0 :: wrest) line := by
        intro line hline
        rw [hpt, hr1] at hline
        rcases List.mem_append.mp hline with hm | hm
        · exact hr2 line (by simpa using hm)
        · rw [List.mem_singleton.mp hm]; exact hr3
      exact ⟨fun hc => absurd hc (by omega), fun line hline =>
        hall line (List.mem_of_mem_tail hline), fun _ => hall⟩

theorem c10_padtext_shape_witness :
    ((pad_text "abc" 3).head? = some "" ∧
      ∃ r, (pad_text "abc" 3)[1]? = some ((((splitSp "abc").headD "") ++ " ") ++ r)) ∧
    wsLine (splitSp "ab cd") ("cd" ++ " ") :=
  ⟨(c10_padtext_shape "abc" 3).1 (by decide),
   (c10_padtext_shape "ab cd" 3).2.1 ("cd" ++ " ") (by decide)⟩

theorem joinComma_eq_empty : ∀ l : List String,
    itertoolsJoin l ", " = "" ↔ l = [] ∨ l = [""] := by
  intro l
  cases l with
  | nil => simp [itertoolsJoin]
  | cons x xs =>
    cases xs with
    | nil =>
      simp only [itertoolsJoin, List.foldl_nil]
      constructor
      · intro hx; exact Or.inr (by rw [hx])
      · rintro (h | h)
        · cases h
        · exact (List.cons.inj h).1
    | cons y ys =>
      have hfold : ∀ (l : List String) (a : String),
          a.length ≤ (l.foldl (fun acc e => acc ++ ", " ++ e) a).length := by
        intro l
        induction l with
        | nil => intro a; simp
        | cons z zs ih =>
          intro a
          calc a.length ≤ (a ++ ", " ++ z).length := by
                rw [String.length_append, String.length_append]; omega
            _ ≤ _ := ih _
      have hlen : 2 ≤ (itertoolsJoin (x :: y :: ys) ", ").length := by
        have hj : itertoolsJoin (x :: y :: ys) ", " =
            ys.foldl (fun acc e => acc ++ ", " ++ e) (x ++ ", " ++ y) := by
          simp [itertoolsJoin, List.foldl_cons]
        rw [hj]
        calc 2 ≤ (x ++ ", " ++ y).length := by
              rw [String.length_append, String.length_append]
              have h2 : (", " : String).length = 2 := rfl
              omega
          _ ≤ _ := hfold ys _
      constructor
      · intro hj
        rw [hj] at hlen
        simp at hlen
      · rintro (h | h) <;> cases h

/-- Claim C7, amended: the text renderer splits the dependencies by
membership in the crate-name set into the internal and the external list
(order preserved), joins each with `", "`, word-wraps with the same budget,
and prefixes `< ` or `> `; but a list is omitted exactly when its joined
string is empty — that is, when the list is empty or when it is the single
empty-string dependency name — not only when it is empty, as the claim
states (see the counterexample). -/
theorem c7_dep_lines (p : Project) (crates : List String) (level : Nat) :
    depLines p crates level =
      (if p.deps.filter (fun dep => crates.contains dep) = [] ∨
          p.deps.filter (fun dep => crates.contains dep) = [""] then []
       else (pad_text (itertoolsJoin (p.deps.filter (fun dep => crates.contains dep)) ", ")
              (padded_text_len p.folder.length level)).map
          (fun line => srepeat "   |" level ++ srepeat " " p.folder.length ++ "   < " ++ line)) ++
      (if p.deps.filter (fun dep => !(crates.contains dep)) = [] ∨
          p.deps.filter (fun dep => !(crates.contains dep)) = [""] then []
       else (pad_text (itertoolsJoin (p.deps.filter (fun dep => !(crates.contains dep))) ", ")
              (padded_text_len p.folder.length level)).map
          (fun line => srepeat "   |" level ++ srepeat " " p.folder.length ++ "   > " ++ line)) := by
  simp only [depLines, List.partition_eq_filter_filter, Function.comp, joinComma_eq_empty]
  rfl

/-- Claim C7, counterexample: a node whose only dependency is the empty
string (as produced by a top-level `"dependencies."` manifest key) has a
non-empty external list, yet the renderer emits no `> ` line, because the
joined string is empty. -/
theorem c7_dep_lines_cex :
    depLines (.mk "d" "a" none [] [""]) ["a"] 0 = [] ∧
    (Project.deps (.mk "d" "a" none [] [""])).filter
      (fun dep => !(["a"].contains dep)) = [""] ∧
    ([""] : List String) ≠ [] := by decide

theorem mem_subProjects_self (p : Project) : p ∈ subProjects p := by
  cases p with
  | mk f n d subs deps =>
    rw [subProjects]
    exact List.mem_cons_self _ _

theorem mem_subProjectsList : ∀ (l : List Project) (q : Project),
    q ∈ subProjectsList l ↔ ∃ c ∈ l, q ∈ subProjects c := by
  intro l
  induction l with
  | nil => intro q; simp [subProjectsList]
  | cons x xs ih =>
    intro q
    simp only [subProjectsList, List.mem_append, ih, List.mem_cons]
    constructor
    · rintro (hx | ⟨c, hc, hq⟩)
      · exact ⟨x, Or.inl rfl, hx⟩
      · exact ⟨c, Or.inr hc, hq⟩
    · rintro ⟨c, hc | hc, hq⟩
      · rw [hc] at hq; exact Or.inl hq
      · exact Or.inr ⟨c, hc, hq⟩

theorem edgeLinesList_flatMap (ignore highlight crates : List String) : ∀ l : List Project,
    (∀ q ∈ l, edgeLines q ignore highlight crates =
      (subProjects q).flatMap (fun x => nodeEdgeLines x ignore highlight crates)) →
    edgeLinesList l ignore highlight crates =
      (subProjectsList l).flatMap (fun x => nodeEdgeLines x ignore highlight crates) := by
  intro l
  induction l with
  | nil => intro _; rfl
  | cons x xs ih =>
    intro hq
    rw [edgeLinesList, subProjectsList, List.flatMap_append,
      hq x (List.mem_cons_self _ _), ih (fun q hqm => hq q (List.mem_cons_of_mem _ hqm))]

theorem edgeLines_eq_flatMap (p : Project) (ignore highlight crates : List String) :
    edgeLines p ignore highlight crates =
      (subProjects p).flatMap (fun x => nodeEdgeLines x ignore highlight crates) := by
  induction p using proj_induction with
  | h f n dsc subs deps ih =>
    rw [edgeLines, subProjects, List.flatMap_cons,
      edgeLinesList_flatMap ignore highlight crates subs ih]

theorem nodeEdgeLines_mem (q : Project) (ignore highlight crates : List String) (line : String)
    (hline : line ∈ nodeEdgeLines q ignore highlight crates) :
    ∃ dep ∈ q.deps, line = edgeLine q.pname dep highlight ∧ crates.contains dep = true ∧
      ignore.contains q.pname = false ∧ ignore.contains dep = false ∧
      ∀ sub ∈ q.subs, sub.pname ≠ dep := by
  simp only [nodeEdgeLines] at hline
  obtain ⟨dep, hdep, hsome⟩ := List.mem_filterMap.mp hline
  obtain ⟨hdeps, hcont⟩ := List.mem_filter.mp hdep
  by_cases hc : (!(ignore.contains q.pname) && !(ignore.contains dep) &&
      !(q.subs.any (fun sub => sub.pname == dep))) = true
  · rw [if_pos hc] at hsome
    injection hsome with hsome
    rw [Bool.and_eq_true, Bool.and_eq_true] at hc
    obtain ⟨⟨h1, h2⟩, h3⟩ := hc
    refine ⟨dep, hdeps, hsome.symm, hcont, by simpa using h1, by simpa using h2, ?_⟩
    intro sub hsub
    have hany : q.subs.any (fun sub => sub.pname == dep) = false := by simpa using h3
    have := List.any_eq_false.mp hany sub hsub
    simpa using this
  · rw [if_neg hc] at hsome
    cases hsome

/-- Claim C3: the edge pass emits, per node, exactly one line per dependency
that is a crate name (internal) and survives the filters; every emitted edge
has its target in the crate-name set, neither endpoint in the ignore set,
and a target that is not one of the emitting node's direct children. -/
theorem c3_edge_filtering (p : Project) (ignore highlight crates : List String) :
    (edgeLines p ignore highlight crates =
      (subProjects p).flatMap (fun q => nodeEdgeLines q ignore highlight crates)) ∧
    ∀ q ∈ subProjects p, ∀ line ∈ nodeEdgeLines q ignore highlight crates,
      ∃ dep ∈ q.deps, line = edgeLine q.pname dep highlight ∧ crates.contains dep = true ∧
        ignore.contains q.pname = false ∧ ignore.contains dep = false ∧
        ∀ sub ∈ q.subs, sub.pname ≠ dep :=
  ⟨edgeLines_eq_flatMap p ignore highlight crates,
   fun q _ line hline => nodeEdgeLines_mem q ignore highlight crates line hline⟩

theorem c3_edge_filtering_witness :
    ∃ dep ∈ Project.deps (.mk "f" "a" none [.mk "g" "b" none [] []] ["b", "z", "q"]),
      ("\"a\" -> \"z\" " : String) =
        edgeLine (Project.pname (.mk "f" "a" none [.mk "g" "b" none [] []] ["b", "z", "q"]))
          dep [] ∧
      (["a", "b", "z"].contains dep) = true ∧
      (["q"].contains
        (Project.pname (.mk "f" "a" none [.mk "g" "b" none [] []] ["b", "z", "q"]))) = false ∧
      (["q"].contains dep) = false ∧
      ∀ sub ∈ Project.subs (.mk "f" "a" none [.mk "g" "b" none [] []] ["b", "z", "q"]),
        Project.pname sub ≠ dep :=
  (c3_edge_filtering (.mk "f" "a" none [.mk "g" "b" none [] []] ["b", "z", "q"])
      ["q"] [] ["a", "b", "z"]).2
    (.mk "f" "a" none [.mk "g" "b" none [] []] ["b", "z", "q"])
    (mem_subProjects_self _)
    "\"a\" -> \"z\" " (by decide)

theorem quoted_mem_clusterLines (q : Project) :
    ("\"" ++ q.pname ++ "\"") ∈ clusterLines q := by
  cases q with
  | mk f n d subs deps =>
    rw [clusterLines]
    simp [Project.pname]

theorem header_mem_clusterLines (q : Project) (h : q.subs ≠ []) :
    ("subgraph cluster_" ++ sanitizeId q.pname ++ " \x7b") ∈ clusterLines q := by
  cases q with
  | mk f n d subs deps =>
    simp only [Project.subs] at h
    have hemp : subs.isEmpty = false := by
      cases subs with
      | nil => exact absurd rfl h
      | cons x xs => rfl
    rw [clusterLines, hemp]
    simp [Project.pname]

theorem clusterLines_sub_list : ∀ (l : List Project) (c : Project), c ∈ l →
    ∀ x ∈ clusterLines c, x ∈ clusterLinesList l := by
  intro l
  induction l with
  | nil => intro c hc; cases hc
  | cons y ys ih =>
    intro c hc x hx
    rw [clusterLinesList]
    rcases List.mem_cons.mp hc with h | h
    · exact List.mem_append.mpr (Or.inl (h ▸ hx))
    · exact List.mem_append.mpr (Or.inr (ih c h x hx))

theorem clusterLines_mono (p : Project) :
    ∀ q ∈ subProjects p, ∀ x ∈ clusterLines q, x ∈ clusterLines p := by
  induction p using proj_induction with
  | h f n dsc subs deps ih =>
    intro q hq x hx
    rw [subProjects] at hq
    rcases List.mem_cons.mp hq with hq | hq
    · rw [hq] at hx; exact hx
    · obtain ⟨c, hc, hqc⟩ := (mem_subProjectsList subs q).mp hq
      have hxl := clusterLines_sub_list subs c hc x (ih c hc q hqc x hx)
      rw [clusterLines]
      simp only [List.mem_append]
      tauto

/-- Claim C8: every node of the tree appears as a quoted, unmodified node
declaration; every node with children additionally opens a subgraph cluster
whose bare identifier is its name with `-` replaced by `_`; a leaf's output
is exactly the single bare quoted declaration, with no cluster wrapper; and
every edge line quotes both endpoints unmodified. -/
theorem c8_dot_identifiers (p : Project) (ignore highlight crates : List String) :
    (∀ q ∈ subProjects p, ("\"" ++ q.pname ++ "\"") ∈ clusterLines p) ∧
    (∀ q ∈ subProjects p, q.subs ≠ [] →
      ("subgraph cluster_" ++ sanitizeId q.pname ++ " \x7b") ∈ clusterLines p) ∧
    (∀ q : Project, q.subs = [] → clusterLines q = ["\"" ++ q.pname ++ "\""]) ∧
    ∀ line ∈ edgeLines p ignore highlight crates, ∃ q ∈ subProjects p, ∃ dep ∈ q.deps,
      line = "\"" ++ q.pname ++ "\" -> \"" ++ dep ++ "\" " ++
        edgeAttrs highlight q.pname dep := by
  refine ⟨?_, ?_, ?_, ?_⟩
  · intro q hq
    exact clusterLines_mono p q hq _ (quoted_mem_clusterLines q)
  · intro q hq hne
    exact clusterLines_mono p q hq _ (header_mem_clusterLines q hne)
  · intro q hq
    cases q with
    | mk f n d subs deps =>
      simp only [Project.subs] at hq
      subst hq
      rw [clusterLines]
      rfl
  · intro line hline
    rw [edgeLines_eq_flatMap] at hline
    obtain ⟨q, hq, hql⟩ := List.mem_flatMap.mp hline
    obtain ⟨dep, hdep, heq, _⟩ := nodeEdgeLines_mem q ignore highlight crates line hql
    exact ⟨q, hq, dep, hdep, heq⟩

theorem c8_dot_identifiers_witness :
    ("\"" ++ Project.pname (.mk "f" "a-b" none [.mk "g" "c" none [] []] []) ++ "\"") ∈
      clusterLines (.mk "f" "a-b" none [.mk "g" "c" none [] []] []) ∧
    ("subgraph cluster_" ++
        sanitizeId (Project.pname (.mk "f" "a-b" none [.mk "g" "c" none [] []] [])) ++
        " \x7b") ∈
      clusterLines (.mk "f" "a-b" none [.mk "g" "c" none [] []] []) ∧
    clusterLines (.mk "g" "c" none [] []) =
      ["\"" ++ Project.pname (.mk "g" "c" none [] []) ++ "\""] :=
  ⟨(c8_dot_identifiers (.mk "f" "a-b" none [.mk "g" "c" none [] []] []) [] [] []).1
      (.mk "f" "a-b" none [.mk "g" "c" none [] []] []) (mem_subProjects_self _),
   (c8_dot_identifiers (.mk "f" "a-b" none [.mk "g" "c" none [] []] []) [] [] []).2.1
      (.mk "f" "a-b" none [.mk "g" "c" none [] []] []) (mem_subProjects_self _)
      (by simp [Project.subs]),
   (c8_dot_identifiers (.mk "f" "a-b" none [.mk "g" "c" none [] []] []) [] [] []).2.2.1
      (.mk "g" "c" none [] []) rfl⟩
